import Mathlib

/-!
Verification of the semantic cache, citation extractor, control loop and
request handler of the doc-Q-A-RAG-Agent repository, as a shallow embedding
in Lean.

Modelling conventions:
* Python `float` values (timestamps, similarities, thresholds) are embedded
  as `ℚ` for times and `ℝ` for embedding coordinates and similarities;
  floating-point rounding is not modelled.
* A Python `dict` (which preserves insertion order, overwrites in place and
  appends fresh keys at the end) is embedded as an association list
  `List (String × CacheEntry)`.
* The SHA-256 digest used by `SemanticCache._make_key` only serves as an
  injective key for the normalized query, so it is modelled by the
  normalized query string itself.
-/

/-- `api.py` `Citation`: a parsed citation record. -/
structure Citation where
  source : String
  title : Option String := none
  page : Option Int := none
  chunk : Option String := none
  snippet : Option String := none
deriving DecidableEq, Repr

/-- A conversation message.  `role`/`content` model LangChain messages as the
repository's code reads them; `toolCalls` records whether the message carries
a structured tool-call request (what `tools_condition` inspects). -/
structure Message where
  role : String
  content : String
  toolCalls : Bool := false
deriving DecidableEq, Repr, Inhabited

/-- `cache.py` `CacheEntry`. -/
structure CacheEntry where
  query : String
  answer : String
  citations : List Citation
  embedding : List ℝ
  created_at : ℚ
  hit_count : ℕ

/-- `np.dot` on two 1-D vectors (equal lengths in every call the code makes;
a length mismatch truncates to the shorter vector here, where NumPy would
raise). -/
def dotList (a b : List ℝ) : ℝ :=
  ((a.zip b).map fun p => p.1 * p.2).sum

/-- `np.linalg.norm`: the Euclidean norm. -/
noncomputable def normL2 (a : List ℝ) : ℝ :=
  Real.sqrt (dotList a a)

/-- `SemanticCache._cosine_similarity`: `dot(a,b) / (‖a‖·‖b‖)`, `0.0` when the
denominator is zero. -/
noncomputable def cosineSimilarity (a b : List ℝ) : ℝ :=
  let denom := normL2 a * normL2 b
  if denom = 0 then 0 else dotList a b / denom

/-- `cache.py` `SemanticCache`: configuration and store.  `embed` models the
injected `embeddings_model` composed with `np.asarray` (`_get_embedding`). -/
structure SemanticCache where
  embed : String → List ℝ
  threshold : ℝ
  max_entries : ℕ
  ttl : ℚ
  store : List (String × CacheEntry)

/-- `SemanticCache.__init__` defaults: threshold 0.92, 2048 entries, TTL 3600 s,
empty store. -/
noncomputable def SemanticCache.init (embed : String → List ℝ) : SemanticCache :=
  { embed := embed, threshold := 0.92, max_entries := 2048, ttl := 3600, store := [] }

/-- `str.lower` on one character, modelled for ASCII (the code only lowercases
query strings and the grader's yes/no score). -/
def toLowerChar (c : Char) : Char :=
  if 'A' ≤ c ∧ c ≤ 'Z' then Char.ofNat (c.toNat + 32) else c

/-- `str.strip`: drop leading and trailing whitespace. -/
def stripChars (l : List Char) : List Char :=
  ((l.dropWhile Char.isWhitespace).reverse.dropWhile Char.isWhitespace).reverse

/-- `str.strip` on strings. -/
def stripString (s : String) : String :=
  String.mk (stripChars s.data)

/-- `str.lower` on strings (ASCII). -/
def lowerString (s : String) : String :=
  String.mk (s.data.map toLowerChar)

/-- `SemanticCache._make_key`: the normalized (`query.strip().lower()`) query,
standing in for its SHA-256 digest. -/
def makeKey (query : String) : String :=
  lowerString (stripString query)

/-- Python dict assignment `store[k] = v`: overwrite in place, or append a
fresh key at the end. -/
def dictInsert (k : String) (v : CacheEntry) :
    List (String × CacheEntry) → List (String × CacheEntry)
  | [] => [(k, v)]
  | kv :: rest => if kv.1 = k then (k, v) :: rest else kv :: dictInsert k v rest

/-- Python `del store[k]` / `store.pop(k, None)`: drop the entries keyed `k`
(one at most, since dict keys are unique). -/
def dictErase (k : String) (l : List (String × CacheEntry)) :
    List (String × CacheEntry) :=
  l.filter fun kv => kv.1 ≠ k

/-- Python `store[k]` lookup (`none` where Python would raise `KeyError`). -/
def dictGet? (k : String) : List (String × CacheEntry) → Option CacheEntry
  | [] => none
  | kv :: rest => if kv.1 = k then some kv.2 else dictGet? k rest

/-- `SemanticCache._evict_expired` run at time `now`: keep the entries with
`now - created_at ≤ ttl` (the complement of the eviction test
`now - created_at > ttl`), preserving order. -/
def evictExpired (ttl now : ℚ) (store : List (String × CacheEntry)) :
    List (String × CacheEntry) :=
  store.filter fun kv => now - kv.2.created_at ≤ ttl

/-- `min(self._store, key=...)` over a nonempty store: the first entry of
minimal `created_at`, as a left fold that replaces the candidate only on a
strictly smaller value. -/
def oldestOf : (String × CacheEntry) → List (String × CacheEntry) → String × CacheEntry
  | kv, [] => kv
  | kv, kv' :: rest =>
      oldestOf (if kv'.2.created_at < kv.2.created_at then kv' else kv) rest

/-- `SemanticCache._enforce_capacity` with explicit fuel: each iteration of the
`while` loop deletes one present key, so `store.length` iterations always
suffice (see `enforceCapacity`). -/
def enforceCapacityFuel (maxEntries : ℕ) : ℕ → List (String × CacheEntry) →
    List (String × CacheEntry)
  | 0, store => store
  | fuel + 1, store =>
    if store.length ≤ maxEntries then store
    else
      match store with
      | [] => []
      | kv :: rest =>
          enforceCapacityFuel maxEntries fuel (dictErase (oldestOf kv rest).1 (kv :: rest))

/-- `SemanticCache._enforce_capacity`: while the store exceeds `max_entries`,
delete the oldest-by-`created_at` entry. -/
def enforceCapacity (maxEntries : ℕ) (store : List (String × CacheEntry)) :
    List (String × CacheEntry) :=
  enforceCapacityFuel maxEntries store.length store

/-- The scan loop of `SemanticCache.get`: fold over the store tracking
`(best_key, best_sim)`, starting from `(None, -1.0)` and updating on a
strictly greater similarity. -/
noncomputable def bestScan (qVec : List ℝ) (store : List (String × CacheEntry)) :
    Option String × ℝ :=
  store.foldl
    (fun best kv =>
      let sim := cosineSimilarity qVec kv.2.embedding
      if best.2 < sim then (some kv.1, sim) else best)
    (none, -1)

/-- `store[best_key].hit_count += 1`, in place. -/
def bumpHit (k : String) (store : List (String × CacheEntry)) :
    List (String × CacheEntry) :=
  store.map fun kv =>
    if kv.1 = k then (kv.1, { kv.2 with hit_count := kv.2.hit_count + 1 }) else kv

/-- `SemanticCache.get` at time `now`: `(hit?, cache after the call)`.  An empty
store returns immediately; otherwise expired entries are swept, the live
entries are scanned for the best cosine similarity, and a hit is returned iff
a best key was recorded and its similarity reaches the threshold (bumping that
entry's `hit_count`). -/
noncomputable def SemanticCache.get (c : SemanticCache) (now : ℚ) (query : String) :
    Option (String × List Citation) × SemanticCache :=
  match c.store with
  | [] => (none, c)
  | _ :: _ =>
    let qVec := c.embed query
    let store' := evictExpired c.ttl now c.store
    let best := bestScan qVec store'
    match best.1 with
    | none => (none, { c with store := store' })
    | some key =>
      if best.2 ≥ c.threshold then
        match dictGet? key store' with
        | some e => (some (e.answer, e.citations), { c with store := bumpHit key store' })
        | none => (none, { c with store := store' })
      else (none, { c with store := store' })

/-- `SemanticCache.put` at time `now`: embed the query, insert/overwrite the
entry under the normalized-query key, then enforce the capacity bound.  (No
TTL sweep happens here: `_evict_expired` is called only by `get`.) -/
def SemanticCache.put (c : SemanticCache) (query answer : String)
    (citations : Option (List Citation)) (now : ℚ) : SemanticCache :=
  let qVec := c.embed query
  let key := makeKey query
  let entry : CacheEntry :=
    { query := query, answer := answer, citations := citations.getD [],
      embedding := qVec, created_at := now, hit_count := 0 }
  { c with store := enforceCapacity c.max_entries (dictInsert key entry c.store) }

/-- `SemanticCache.invalidate`: `(whether an entry was removed, cache after)`. -/
def SemanticCache.invalidate (c : SemanticCache) (query : String) :
    Bool × SemanticCache :=
  let key := makeKey query
  ((dictGet? key c.store).isSome, { c with store := dictErase key c.store })

/-- `SemanticCache.clear`. -/
def SemanticCache.clear (c : SemanticCache) : SemanticCache :=
  { c with store := [] }

/-- `SemanticCache.size`: `len(self._store)` — no sweep of any kind. -/
def SemanticCache.size (c : SemanticCache) : ℕ :=
  c.store.length

/-- The live (non-expired) entries of a cache at time `now`, in store order:
what `get`'s similarity scan ranges over. -/
def liveStore (c : SemanticCache) (now : ℚ) : List (String × CacheEntry) :=
  evictExpired c.ttl now c.store

/-- Strip `pat` from the front of `l`: `some` remainder on a match. -/
def stripPrefixList : List Char → List Char → Option (List Char)
  | [], l => some l
  | _ :: _, [] => none
  | a :: as, b :: bs => if a = b then stripPrefixList as bs else none

/-- Python's substring test `pat in text`. -/
def containsSub (pat : List Char) : List Char → Bool
  | [] => (stripPrefixList pat []).isSome
  | c :: rest => (stripPrefixList pat (c :: rest)).isSome || containsSub pat rest

/-- Split off the current line: `(text up to the next newline, text after it)`. -/
def upToLineEnd : List Char → List Char × List Char
  | [] => ([], [])
  | c :: rest =>
    if c = '\n' then ([], rest)
    else
      let p := upToLineEnd rest
      (c :: p.1, p.2)

/-- The match of `\[CITATION\s+\d+\]` at the head of `l` (`CIT_BLOCK_RE`'s
prefix): `some` of what follows the closing bracket. -/
def matchHeader (l : List Char) : Option (List Char) :=
  match stripPrefixList "[CITATION".toList l with
  | none => none
  | some rest =>
    match rest with
    | [] => none
    | w :: rest1 =>
      if w.isWhitespace then
        match rest1.dropWhile Char.isWhitespace with
        | [] => none
        | d :: rest2 =>
          if d.isDigit then
            match rest2.dropWhile Char.isDigit with
            | [] => none
            | b :: rest3 => if b = ']' then some rest3 else none
          else none
      else none

/-- The lazy capture `(.*?)(?=\n\n\[CITATION|\Z)` of `CIT_BLOCK_RE`:
`(capture up to the first occurrence of "\n\n[CITATION" or the end, rest
from that boundary)`. -/
def captureBlock : List Char → List Char × List Char
  | [] => ([], [])
  | c :: rest =>
    if (stripPrefixList "\n\n[CITATION".toList (c :: rest)).isSome then ([], c :: rest)
    else
      let p := captureBlock rest
      (c :: p.1, p.2)

/-- `CIT_BLOCK_RE.findall` with explicit fuel: scan left to right; at each
match of `\[CITATION\s+\d+\]` capture lazily up to the next `"\n\n[CITATION"`
(or the end) and resume from that boundary.  Every step consumes at least one
character (`matchHeader_lt`, `captureBlock_rest_le`), so `citBlocks` below
always supplies enough fuel (`citBlocksFuel_congr`). -/
def citBlocksFuel : ℕ → List Char → List (List Char)
  | 0, _ => []
  | _, [] => []
  | fuel + 1, c :: rest =>
    match matchHeader (c :: rest) with
    | some afterHeader =>
        (captureBlock afterHeader).1 :: citBlocksFuel fuel (captureBlock afterHeader).2
    | none => citBlocksFuel fuel rest

/-- `CIT_BLOCK_RE.findall`. -/
def citBlocks (text : List Char) : List (List Char) :=
  citBlocksFuel text.length text

/-- The match of `(SOURCE|TITLE|PAGE|CHUNK|SNIPPET):` at the head of `l`
(`FIELD_RE` is anchored at a line start): `(key, what follows the colon)`. -/
def matchKey (l : List Char) : Option (String × List Char) :=
  match stripPrefixList "SOURCE:".toList l with
  | some r => some ("SOURCE", r)
  | none =>
    match stripPrefixList "TITLE:".toList l with
    | some r => some ("TITLE", r)
    | none =>
      match stripPrefixList "PAGE:".toList l with
      | some r => some ("PAGE", r)
      | none =>
        match stripPrefixList "CHUNK:".toList l with
        | some r => some ("CHUNK", r)
        | none =>
          match stripPrefixList "SNIPPET:".toList l with
          | some r => some ("SNIPPET", r)
          | none => none

/-- `FIELD_RE.findall` over a block (`re.M`) with explicit fuel: at each line
start, match a recognized `KEY:`, skip the (possibly newline-crossing) run of
whitespace after the colon, and take the rest of the line where that run ends
as the value; resume at the following line.  Every step consumes at least one
character (`matchKey_lt`, `upToLineEnd_rest_lt`), so `parseFields` below
always supplies enough fuel (`parseFieldsFuel_congr`). -/
def parseFieldsFuel : ℕ → List Char → List (String × List Char)
  | 0, _ => []
  | _, [] => []
  | fuel + 1, c :: rest =>
    match matchKey (c :: rest) with
    | some (k, afterColon) =>
        let v := afterColon.dropWhile Char.isWhitespace
        (k, (upToLineEnd v).1) :: parseFieldsFuel fuel (upToLineEnd v).2
    | none => parseFieldsFuel fuel (upToLineEnd (c :: rest)).2

def parseFields (b : List Char) : List (String × List Char) :=
  parseFieldsFuel b.length b

/-- `dict(FIELD_RE.findall(b)).get(k)`: the value of the last pair with key
`k` (`dict` keeps the last duplicate). -/
def lastField (k : String) (fields : List (String × List Char)) : Option (List Char) :=
  fields.foldl (fun acc kv => if kv.1 = k then some kv.2 else acc) none

/-- `(fields.get(K) or "")`. -/
def fieldOrEmpty (k : String) (fields : List (String × List Char)) : String :=
  String.mk ((lastField k fields).getD [])

/-- The digits' value, most significant first. -/
def digitsToNat (ds : List Char) : ℕ :=
  ds.foldl (fun n c => 10 * n + (c.toNat - '0'.toNat)) 0

/-- `api.py` `_to_int`: strip, `None` on empty, else `int(float(s))` —
truncation toward zero.  Modelled for sign + digits + optional fraction
literals; exotic `float` syntax (exponents, `inf`, `nan`, underscores) is not
modelled and yields `none`. -/
def toIntPy (s : String) : Option Int :=
  let t := stripChars s.data
  let signed : Bool × List Char :=
    match t with
    | '-' :: r => (true, r)
    | '+' :: r => (false, r)
    | r => (false, r)
  let intDigits := signed.2.takeWhile Char.isDigit
  let rest := signed.2.dropWhile Char.isDigit
  let ok : Bool :=
    match rest with
    | [] => !intDigits.isEmpty
    | '.' :: fr => (!intDigits.isEmpty || !fr.isEmpty) && fr.all Char.isDigit
    | _ => false
  if ok then
    some (if signed.1 then -(digitsToNat intDigits : Int) else (digitsToNat intDigits : Int))
  else none

/-- One record of `_collect_last_citations`'s loop body: the parsed fields of a
block, kept only when `SOURCE` is non-empty after trimming; `TITLE`/`CHUNK`/
`SNIPPET` are stripped and empty becomes absent; `PAGE` goes through
`_to_int`. -/
def citationOfBlock (b : List Char) : Option Citation :=
  let fields := parseFields b
  let src := stripString (fieldOrEmpty "SOURCE" fields)
  if src = "" then none
  else
    some
      { source := src
        title := let t := stripString (fieldOrEmpty "TITLE" fields)
                 if t = "" then none else some t
        page := toIntPy (fieldOrEmpty "PAGE" fields)
        chunk := let t := stripString (fieldOrEmpty "CHUNK" fields)
                 if t = "" then none else some t
        snippet := let t := stripString (fieldOrEmpty "SNIPPET" fields)
                   if t = "" then none else some t }

/-- The loop of `api.py` `_collect_last_citations` over the already-reversed
message list: skip messages with falsy content, without both literal
substrings `"[CITATION"` and `"SOURCE:"`, or whose text yields no
`CIT_BLOCK_RE` block; at the first remaining message, return its parsed
records. -/
def collectLastGo : List Message → List Citation
  | [] => []
  | m :: older =>
    if m.content = "" then collectLastGo older
    else if !(containsSub "[CITATION".toList m.content.toList
              && containsSub "SOURCE:".toList m.content.toList) then collectLastGo older
    else if citBlocks m.content.toList = [] then collectLastGo older
    else (citBlocks m.content.toList).filterMap citationOfBlock

/-- `api.py` `_collect_last_citations`: scan the conversation from the most
recent message backward. -/
def collectLastCitations (messages : List Message) : List Citation :=
  collectLastGo messages.reverse

/-- The outcome of `app.state.graph.invoke` under `asyncio.wait_for` in the
`/v1/chat` handler: the final message list, a timeout, or another exception
(its type name and message). -/
inductive GraphOutcome
  | ok (messages : List Message)
  | timeout
  | failure (excName excMessage : String)

/-- The structured error of a failed `/v1/chat` request (`HTTPException`):
status code and detail string. -/
structure ChatError where
  status : ℕ
  detail : String
deriving DecidableEq, Repr

/-- `api.py` `ChatResponse` (without the random `trace_id`). -/
structure ChatResponse where
  answer : String
  citations : List Citation
  cached : Bool
deriving DecidableEq, Repr

/-- `api.py` `chat`: cache lookup; on hit, the cached answer with
`cached=true`; on miss, the orchestrator's outcome is consumed — a successful
run has its citations extracted, its last message's text taken as the answer,
and the pair written to the cache; a timeout becomes a 504 error and any other
exception a 500 error, with no `put`.  Returns the response (or the single
structured error) together with the cache as left by the call. -/
noncomputable def chat (cache : SemanticCache) (message : String) (timeout_s : ℕ)
    (now : ℚ) (outcome : GraphOutcome) :
    Except ChatError ChatResponse × SemanticCache :=
  let looked := cache.get now message
  match looked.1 with
  | some hit =>
      (Except.ok { answer := hit.1, citations := hit.2, cached := true }, looked.2)
  | none =>
    match outcome with
    | GraphOutcome.ok msgs =>
        let citations := collectLastCitations msgs
        let answer := match msgs.getLast? with
                      | some m => m.content
                      | none => ""
        (Except.ok { answer := answer, citations := citations, cached := false },
         looked.2.put message answer (some citations) now)
    | GraphOutcome.timeout =>
        (Except.error { status := 504,
                        detail := "Timeout after " ++ toString timeout_s ++ "s" },
         looked.2)
    | GraphOutcome.failure excName excMessage =>
        (Except.error { status := 500, detail := excName ++ ": " ++ excMessage },
         looked.2)

/-- `nodes.py` `grade_documents`' routing decision, as a function of the
structured grader output (`None` when the model returned no score):
`(response.binary_score or "").lower().strip()` compared with `"yes"`. -/
def gradeRoute (binary_score : Option String) : String :=
  if stripString (lowerString (binary_score.getD "")) = "yes" then "generate_answer"
  else "rewrite_question"

/-- The nodes of the compiled graph of `graph_builder.py` (`graphEnd` is
LangGraph's `END`). -/
inductive Node
  | generate_query_or_respond
  | retrieve
  | rewrite_question
  | generate_answer
  | graphEnd
deriving DecidableEq, Repr

/-- The external calls the graph's nodes make: the deciding LLM response (with
or without a tool call), the retriever tool's message, the grader's
`binary_score`, the rewriter's response and the final generator's response. -/
structure GraphOracles where
  decideMsg : List Message → Message
  toolMsg : List Message → Message
  gradeScore : String → String → Option String
  rewriteMsg : String → Message
  generateMsg : String → String → Message

/-- The run state of the compiled graph: current node and message list. -/
structure GraphState where
  node : Node
  messages : List Message

/-- One superstep of the compiled graph of `build_graph`:
`generate_query_or_respond` appends the LLM response and `tools_condition`
routes on its tool calls; `retrieve` appends the tool message and
`grade_documents` routes on the grader's score over `messages[0]` (the
original question) and `messages[-1]` (the tool output); `rewrite_question`
appends a user-turn rewrite and loops back; `generate_answer` appends the
final answer and ends. -/
def step (o : GraphOracles) (s : GraphState) : GraphState :=
  match s.node with
  | Node.generate_query_or_respond =>
      let r := o.decideMsg s.messages
      { node := if r.toolCalls then Node.retrieve else Node.graphEnd,
        messages := s.messages ++ [r] }
  | Node.retrieve =>
      let msgs := s.messages ++ [o.toolMsg s.messages]
      let question := (msgs.headD default).content
      let context := ((msgs.getLast?).getD default).content
      { node := if gradeRoute (o.gradeScore question context) = "generate_answer"
                then Node.generate_answer else Node.rewrite_question,
        messages := msgs }
  | Node.rewrite_question =>
      let question := (s.messages.headD default).content
      { node := Node.generate_query_or_respond,
        messages := s.messages ++ [{ role := "user",
                                     content := (o.rewriteMsg question).content }] }
  | Node.generate_answer =>
      let question := (s.messages.headD default).content
      let context := ((s.messages.getLast?).getD default).content
      { node := Node.graphEnd,
        messages := s.messages ++ [o.generateMsg question context] }
  | Node.graphEnd => s

/-- The initial state of a `/v1/chat` run: the user message, entering the
graph at `generate_query_or_respond` (the `START` edge). -/
def initialGraphState (question : String) : GraphState :=
  { node := Node.generate_query_or_respond,
    messages := [{ role := "user", content := question }] }

/-- `tools.py` document: page content plus the metadata fields the tool
reads (`None` values and missing keys coincide under `dict.get`). -/
structure Doc where
  page_content : String
  source : Option String := none
  title : Option String := none
  page : Option String := none
  chunk_id : Option String := none
deriving DecidableEq, Repr

/-- One block of `retrieve_blog_posts`' output for document `doc` at 1-based
index `i`. -/
def formatCitationBlock (i : ℕ) (doc : Doc) : String :=
  let source := doc.source.getD "unknown"
  let title := doc.title.getD ""
  let page := doc.page.getD ""
  let chunk := doc.chunk_id.getD (toString i)
  let text := doc.page_content
  let snippet := ((text.take 1024).replace "\n" " ").trim
  "[CITATION " ++ toString i ++ "]\n" ++
  "SOURCE: " ++ source ++ "\n" ++
  "TITLE: " ++ title ++ "\n" ++
  "PAGE: " ++ page ++ "\n" ++
  "CHUNK: " ++ chunk ++ "\n" ++
  "SNIPPET: " ++ snippet ++ "\n" ++
  "CONTENT:\n" ++ text

/-- `enumerate(docs, start=1)` and the block formatting of the loop. -/
def formatCitationBlocks (i : ℕ) : List Doc → List String
  | [] => []
  | d :: ds => formatCitationBlock i d :: formatCitationBlocks (i + 1) ds

/-- The body of `retrieve_blog_posts`: blocks for the top-3 similarity search
results, joined by blank lines. -/
def retrieveToolOutput (docs : List Doc) : String :=
  String.intercalate "\n\n" (formatCitationBlocks 1 docs)

/-- `tools.py` `make_retriever_tool`: builds the tool closure over the vector
store.  The tool always calls `similarity_search(query, k=3)`; the `k`
parameter of `make_retriever_tool` is not referenced by the closure. -/
def makeRetrieverTool (similarity_search : String → ℕ → List Doc) (k : ℕ) :
    String → String :=
  fun query => retrieveToolOutput (similarity_search query 3)

/-! ### Helper lemmas -/

theorem upToLineEnd_rest_le : ∀ l : List Char, (upToLineEnd l).2.length ≤ l.length
  | [] => le_refl _
  | c :: rest => by
    simp only [upToLineEnd]
    split
    · simp
    · exact Nat.le_succ_of_le (upToLineEnd_rest_le rest)

theorem upToLineEnd_rest_lt (c : Char) (rest : List Char) :
    (upToLineEnd (c :: rest)).2.length < (c :: rest).length := by
  simp only [upToLineEnd]
  split
  · simp
  · exact Nat.lt_succ_of_le (upToLineEnd_rest_le rest)

theorem stripPrefixList_length :
    ∀ (p l r : List Char), stripPrefixList p l = some r → r.length + p.length = l.length
  | [], l, r => by simp only [stripPrefixList, Option.some.injEq]; rintro rfl; simp
  | _ :: _, [], r => by simp [stripPrefixList]
  | a :: as, b :: bs, r => by
    simp only [stripPrefixList]
    split
    · intro h
      have := stripPrefixList_length as bs r h
      simp only [List.length_cons]
      omega
    · intro h; exact absurd h (by simp)

theorem matchHeader_lt (l r : List Char) (h : matchHeader l = some r) :
    r.length < l.length := by
  unfold matchHeader at h
  cases hs : stripPrefixList "[CITATION".toList l with
  | none => rw [hs] at h; exact absurd h (by simp)
  | some rest =>
    rw [hs] at h
    have hrest : rest.length + 9 = l.length := by
      have := stripPrefixList_length _ l rest hs
      simpa using this
    cases rest with
    | nil => exact absurd h (by simp)
    | cons w rest1 =>
      by_cases hw : w.isWhitespace
      · simp only [hw, if_true] at h
        cases hd : rest1.dropWhile Char.isWhitespace with
        | nil => rw [hd] at h; exact absurd h (by simp)
        | cons d rest2 =>
          rw [hd] at h
          by_cases hdd : d.isDigit
          · simp only [hdd, if_true] at h
            cases hb : rest2.dropWhile Char.isDigit with
            | nil => rw [hb] at h; exact absurd h (by simp)
            | cons b rest3 =>
              rw [hb] at h
              change (if b = ']' then some rest3 else none) = some r at h
              by_cases hbr : b = ']'
              · rw [if_pos hbr] at h
                simp only [Option.some.injEq] at h
                subst h
                have h1 : rest3.length < rest2.length + 1 := by
                  have : (rest2.dropWhile Char.isDigit).length ≤ rest2.length :=
                    (List.dropWhile_sublist _).length_le
                  rw [hb] at this
                  simp only [List.length_cons] at this
                  omega
                have h2 : rest2.length + 1 ≤ rest1.length := by
                  have : (rest1.dropWhile Char.isWhitespace).length ≤ rest1.length :=
                    (List.dropWhile_sublist _).length_le
                  rw [hd] at this
                  simpa using this
                simp only [List.length_cons] at hrest
                omega
              · rw [if_neg hbr] at h
                exact absurd h (by simp)
          · simp only [hdd, if_false] at h
            exact absurd h (by simp)
      · simp only [hw, if_false] at h
        exact absurd h (by simp)

theorem captureBlock_rest_le : ∀ l : List Char, (captureBlock l).2.length ≤ l.length
  | [] => le_refl _
  | c :: rest => by
    simp only [captureBlock]
    split
    · exact le_refl _
    · exact Nat.le_succ_of_le (captureBlock_rest_le rest)

theorem matchKey_lt (l : List Char) (k : String) (r : List Char)
    (h : matchKey l = some (k, r)) : r.length < l.length := by
  have strip : ∀ (p : List Char), p ≠ [] → stripPrefixList p l = some r → r.length < l.length := by
    intro p hp hs
    have := stripPrefixList_length p l r hs
    have : 0 < p.length := List.length_pos.mpr hp
    omega
  unfold matchKey at h
  cases h1 : stripPrefixList "SOURCE:".toList l with
  | some r1 => rw [h1] at h; simp only [Option.some.injEq, Prod.mk.injEq] at h
               exact strip _ (by decide) (h.2 ▸ h1)
  | none =>
    rw [h1] at h
    cases h2 : stripPrefixList "TITLE:".toList l with
    | some r2 => rw [h2] at h; simp only [Option.some.injEq, Prod.mk.injEq] at h
                 exact strip _ (by decide) (h.2 ▸ h2)
    | none =>
      rw [h2] at h
      cases h3 : stripPrefixList "PAGE:".toList l with
      | some r3 => rw [h3] at h; simp only [Option.some.injEq, Prod.mk.injEq] at h
                   exact strip _ (by decide) (h.2 ▸ h3)
      | none =>
        rw [h3] at h
        cases h4 : stripPrefixList "CHUNK:".toList l with
        | some r4 => rw [h4] at h; simp only [Option.some.injEq, Prod.mk.injEq] at h
                     exact strip _ (by decide) (h.2 ▸ h4)
        | none =>
          rw [h4] at h
          cases h5 : stripPrefixList "SNIPPET:".toList l with
          | some r5 => rw [h5] at h; simp only [Option.some.injEq, Prod.mk.injEq] at h
                       exact strip _ (by decide) (h.2 ▸ h5)
          | none => rw [h5] at h; exact absurd h (by simp)

theorem citBlocksFuel_congr :
    ∀ (f1 f2 : ℕ) (l : List Char), l.length ≤ f1 → l.length ≤ f2 →
      citBlocksFuel f1 l = citBlocksFuel f2 l := by
  intro f1
  induction f1 with
  | zero =>
    intro f2 l h1 _
    have : l = [] := List.length_eq_zero.mp (Nat.le_zero.mp h1)
    subst this
    cases f2 <;> rfl
  | succ f ih =>
    intro f2 l h1 h2
    cases l with
    | nil => cases f2 <;> rfl
    | cons c rest =>
      cases f2 with
      | zero => exact absurd h2 (by simp)
      | succ g =>
        simp only [citBlocksFuel]
        cases hm : matchHeader (c :: rest) with
        | none =>
          have hr : rest.length ≤ f := by
            simp only [List.length_cons] at h1; omega
          have hr2 : rest.length ≤ g := by
            simp only [List.length_cons] at h2; omega
          exact ih g rest hr hr2
        | some afterHeader =>
          have hlt : (captureBlock afterHeader).2.length < (c :: rest).length :=
            lt_of_le_of_lt (captureBlock_rest_le _) (matchHeader_lt _ _ hm)
          have hr : (captureBlock afterHeader).2.length ≤ f := by
            simp only [List.length_cons] at h1 hlt; omega
          have hr2 : (captureBlock afterHeader).2.length ≤ g := by
            simp only [List.length_cons] at h2 hlt; omega
          exact congrArg (fun t => (captureBlock afterHeader).1 :: t) (ih g _ hr hr2)

theorem parseFieldsFuel_congr :
    ∀ (f1 f2 : ℕ) (l : List Char), l.length ≤ f1 → l.length ≤ f2 →
      parseFieldsFuel f1 l = parseFieldsFuel f2 l := by
  intro f1
  induction f1 with
  | zero =>
    intro f2 l h1 _
    have : l = [] := List.length_eq_zero.mp (Nat.le_zero.mp h1)
    subst this
    cases f2 <;> rfl
  | succ f ih =>
    intro f2 l h1 h2
    cases l with
    | nil => cases f2 <;> rfl
    | cons c rest =>
      cases f2 with
      | zero => exact absurd h2 (by simp)
      | succ g =>
        simp only [parseFieldsFuel]
        cases hm : matchKey (c :: rest) with
        | none =>
          have hlt : (upToLineEnd (c :: rest)).2.length < (c :: rest).length :=
            upToLineEnd_rest_lt c rest
          have hr : (upToLineEnd (c :: rest)).2.length ≤ f := by
            simp only [List.length_cons] at h1 hlt; omega
          have hr2 : (upToLineEnd (c :: rest)).2.length ≤ g := by
            simp only [List.length_cons] at h2 hlt; omega
          exact ih g _ hr hr2
        | some kr =>
          have hlt : ((upToLineEnd (kr.2.dropWhile Char.isWhitespace)).2).length
              < (c :: rest).length := by
            calc ((upToLineEnd (kr.2.dropWhile Char.isWhitespace)).2).length
                ≤ (kr.2.dropWhile Char.isWhitespace).length := upToLineEnd_rest_le _
              _ ≤ kr.2.length := (List.dropWhile_sublist _).length_le
              _ < (c :: rest).length := matchKey_lt _ kr.1 kr.2 (by rw [hm])
          have hr : ((upToLineEnd (kr.2.dropWhile Char.isWhitespace)).2).length ≤ f := by
            simp only [List.length_cons] at h1 hlt; omega
          have hr2 : ((upToLineEnd (kr.2.dropWhile Char.isWhitespace)).2).length ≤ g := by
            simp only [List.length_cons] at h2 hlt; omega
          exact congrArg
            (fun t => (kr.1, (upToLineEnd (kr.2.dropWhile Char.isWhitespace)).1) :: t)
            (ih g _ hr hr2)

theorem gradeRoute_eq_generate (score : Option String) :
    gradeRoute score = "generate_answer" ↔
      stripString (lowerString (score.getD "")) = "yes" := by
  unfold gradeRoute
  by_cases h : stripString (lowerString (score.getD "")) = "yes"
  · simp [h]
  · simp [h]

/-! ### Claim theorems -/

/-- **C8** (amended): at the `retrieve` node the conditional edge routes to
`generate_answer` iff the grader's output — lowercased and stripped — is
`"yes"`; absent output routes to `rewrite_question`, and every output routes
to one of the two nodes (malformed grading output is never an error). -/
theorem c8_grade_routing (o : GraphOracles) (s : GraphState)
    (h : s.node = Node.retrieve) :
    ((step o s).node = Node.generate_answer ↔
        stripString (lowerString
          ((o.gradeScore ((s.messages ++ [o.toolMsg s.messages]).headD default).content
              (((s.messages ++ [o.toolMsg s.messages]).getLast?).getD default).content).getD ""))
          = "yes")
    ∧ (o.gradeScore ((s.messages ++ [o.toolMsg s.messages]).headD default).content
          (((s.messages ++ [o.toolMsg s.messages]).getLast?).getD default).content = none →
        (step o s).node = Node.rewrite_question)
    ∧ ((step o s).node = Node.generate_answer ∨ (step o s).node = Node.rewrite_question) := by
  obtain ⟨node, messages⟩ := s
  subst h
  simp only [step]
  set score := o.gradeScore ((messages ++ [o.toolMsg messages]).headD default).content
      (((messages ++ [o.toolMsg messages]).getLast?).getD default).content with hscore
  by_cases hy : gradeRoute score = "generate_answer"
  · refine ⟨?_, ?_, ?_⟩
    · simp only [hy, if_pos]
      simp only [true_iff]
      exact (gradeRoute_eq_generate score).mp hy
    · intro hnone
      rw [hnone] at hy
      exact absurd hy (by decide)
    · left; simp [hy]
  · refine ⟨?_, ?_, ?_⟩
    · simp only [hy, if_neg, if_false]
      constructor
      · intro hcon; exact absurd hcon (by decide)
      · intro hyes; exact absurd ((gradeRoute_eq_generate score).mpr hyes) hy
    · intro _; simp [hy]
    · right; simp [hy]

/-- Oracles standing for concrete collaborator behaviour in witnesses: the
decide step always requests the tool, the grader answers `"Yes"`. -/
def c8Oracles : GraphOracles :=
  { decideMsg := fun _ => { role := "assistant", content := "", toolCalls := true }
    toolMsg := fun _ => { role := "tool", content := "ctx" }
    gradeScore := fun _ _ => some "Yes"
    rewriteMsg := fun _ => { role := "assistant", content := "rq" }
    generateMsg := fun _ _ => { role := "assistant", content := "ans" } }

/-- A graph state sitting at the `retrieve` node. -/
def c8State : GraphState :=
  { node := Node.retrieve, messages := [{ role := "user", content := "q" }] }

theorem c8_grade_routing_witness :
    ((step c8Oracles c8State).node = Node.generate_answer ↔
        stripString (lowerString
          ((c8Oracles.gradeScore
              ((c8State.messages ++ [c8Oracles.toolMsg c8State.messages]).headD default).content
              (((c8State.messages ++ [c8Oracles.toolMsg c8State.messages]).getLast?).getD
                default).content).getD ""))
          = "yes")
    ∧ (c8Oracles.gradeScore
          ((c8State.messages ++ [c8Oracles.toolMsg c8State.messages]).headD default).content
          (((c8State.messages ++ [c8Oracles.toolMsg c8State.messages]).getLast?).getD
            default).content = none →
        (step c8Oracles c8State).node = Node.rewrite_question)
    ∧ ((step c8Oracles c8State).node = Node.generate_answer
        ∨ (step c8Oracles c8State).node = Node.rewrite_question) :=
  c8_grade_routing c8Oracles c8State rfl

/-- **C8** (counterexample): the grader output `"Yes"` is not the literal
string `"yes"`, yet the edge routes to `generate_answer` — the claim's "iff
the grader's output is yes" fails for outputs that only normalize to yes. -/
theorem c8_counterexample :
    (step c8Oracles c8State).node = Node.generate_answer
    ∧ c8Oracles.gradeScore "q" "ctx" = some "Yes"
    ∧ ("Yes" : String) ≠ "yes" := by
  refine ⟨by decide, rfl, by decide⟩

/-- **C10**: the retriever tool always asks the vector store for exactly 3
passages — its output only depends on the store's answer to a `k = 3` query —
and the `k` parameter of `make_retriever_tool` (4 at the `build_graph` call
site) is ignored. -/
theorem c10_retriever_k_ignored (vs vs' : String → ℕ → List Doc) (k k' : ℕ)
    (q : String) (h : vs q 3 = vs' q 3) :
    makeRetrieverTool vs k q = retrieveToolOutput (vs q 3)
    ∧ makeRetrieverTool vs k q = makeRetrieverTool vs' k' q := by
  refine ⟨rfl, ?_⟩
  unfold makeRetrieverTool
  rw [h]

/-- A concrete retrieved document. -/
def c10Doc : Doc := { page_content := "text", source := some "s.pdf" }

theorem c10_retriever_k_ignored_witness :
    makeRetrieverTool (fun _ n => if n = 3 then [c10Doc] else []) 4 "q"
        = retrieveToolOutput [c10Doc]
    ∧ makeRetrieverTool (fun _ n => if n = 3 then [c10Doc] else []) 4 "q"
        = makeRetrieverTool (fun _ _ => [c10Doc]) 7 "q" :=
  c10_retriever_k_ignored (fun _ n => if n = 3 then [c10Doc] else [])
    (fun _ _ => [c10Doc]) 4 7 "q" (by decide)

theorem c2_loop_invariant (o : GraphOracles)
    (hdec : ∀ m, (o.decideMsg m).toolCalls = true)
    (hgrade : ∀ q ctx, o.gradeScore q ctx = some "no") (s : GraphState)
    (hs : s.node = Node.generate_query_or_respond ∨ s.node = Node.retrieve
          ∨ s.node = Node.rewrite_question) :
    (step o s).node = Node.generate_query_or_respond ∨ (step o s).node = Node.retrieve
    ∨ (step o s).node = Node.rewrite_question := by
  rcases hs with h | h | h
  · right; left
    simp [step, h, hdec]
  · right; right
    simp [step, h, hgrade]
    decide
  · left
    simp [step, h]

/-- **C2**: the compiled graph has no maximum rewrite count.  For a decide
step that always requests retrieval and a grader that always scores `"no"`,
the run never reaches `END` — after any number of supersteps the state is
still inside the Decide→Retrieve→Rewrite cycle, so no answer is ever
produced. -/
theorem c2_unbounded_rewrite_loop (o : GraphOracles)
    (hdec : ∀ m, (o.decideMsg m).toolCalls = true)
    (hgrade : ∀ q ctx, o.gradeScore q ctx = some "no") (q : String) (n : ℕ) :
    ((step o)^[n] (initialGraphState q)).node ≠ Node.graphEnd := by
  have inv : ∀ k : ℕ,
      ((step o)^[k] (initialGraphState q)).node = Node.generate_query_or_respond
      ∨ ((step o)^[k] (initialGraphState q)).node = Node.retrieve
      ∨ ((step o)^[k] (initialGraphState q)).node = Node.rewrite_question := by
    intro k
    induction k with
    | zero => left; rfl
    | succ j ih =>
      rw [Function.iterate_succ_apply']
      exact c2_loop_invariant o hdec hgrade _ ih
  rcases inv n with h | h | h <;> rw [h] <;> decide

/-- Oracles realizing C2's failing input: the decide LLM always requests the
tool and the grader always scores `"no"`. -/
def c2Oracles : GraphOracles :=
  { decideMsg := fun _ => { role := "assistant", content := "", toolCalls := true }
    toolMsg := fun _ => { role := "tool", content := "irrelevant ctx" }
    gradeScore := fun _ _ => some "no"
    rewriteMsg := fun _ => { role := "assistant", content := "rewritten" }
    generateMsg := fun _ _ => { role := "assistant", content := "ans" } }

theorem c2_unbounded_rewrite_loop_witness :
    ((step c2Oracles)^[7] (initialGraphState "what is x?")).node ≠ Node.graphEnd :=
  c2_unbounded_rewrite_loop c2Oracles (fun _ => rfl) (fun _ _ => rfl) "what is x?" 7

theorem collectLastGo_cons (m : Message) (older : List Message) :
    collectLastGo (m :: older) =
      if m.content ≠ ""
          ∧ containsSub "[CITATION".toList m.content.toList = true
          ∧ containsSub "SOURCE:".toList m.content.toList = true
          ∧ citBlocks m.content.toList ≠ []
      then (citBlocks m.content.toList).filterMap citationOfBlock
      else collectLastGo older := by
  simp only [collectLastGo]
  by_cases h1 : m.content = ""
  · rw [if_pos h1, if_neg (fun hcon => hcon.1 h1)]
  · rw [if_neg h1]
    by_cases hA : containsSub "[CITATION".toList m.content.toList = true
    · by_cases hB : containsSub "SOURCE:".toList m.content.toList = true
      · have hband : (containsSub "[CITATION".toList m.content.toList
              && containsSub "SOURCE:".toList m.content.toList) = true :=
          by rw [Bool.and_eq_true]; exact ⟨hA, hB⟩
        rw [hband]
        simp only [Bool.not_true]
        rw [if_neg (by simp)]
        by_cases h3 : citBlocks m.content.toList = []
        · rw [if_pos h3, if_neg (fun hcon => hcon.2.2.2 h3)]
        · rw [if_neg h3, if_pos ⟨h1, hA, hB, h3⟩]
      · have hband : (containsSub "[CITATION".toList m.content.toList
              && containsSub "SOURCE:".toList m.content.toList) = false := by
          rcases Bool.eq_false_or_eq_true
              (containsSub "[CITATION".toList m.content.toList
                && containsSub "SOURCE:".toList m.content.toList) with h | h
          · rw [Bool.and_eq_true] at h; exact absurd h.2 hB
          · exact h
        rw [hband]
        simp only [Bool.not_false]
        rw [if_pos trivial, if_neg (fun hcon => hB hcon.2.2.1)]
    · have hband : (containsSub "[CITATION".toList m.content.toList
            && containsSub "SOURCE:".toList m.content.toList) = false := by
        rcases Bool.eq_false_or_eq_true
            (containsSub "[CITATION".toList m.content.toList
              && containsSub "SOURCE:".toList m.content.toList) with h | h
        · rw [Bool.and_eq_true] at h; exact absurd h.1 hA
        · exact h
      rw [hband]
      simp only [Bool.not_false]
      rw [if_pos trivial, if_neg (fun hcon => hA hcon.2.1)]

/-- **C3** (amended): citation extraction scans the conversation newest-first
and returns the parsed records of the first message that has a non-empty
text containing both `"[CITATION"` and `"SOURCE:"` **and** at least one
parseable `[CITATION n]` block; a message with the substrings but no
parseable block is skipped and the scan continues with older messages; with
no messages the result is empty — never an error. -/
theorem c3_backward_scan (msgs : List Message) (m : Message) :
    collectLastCitations [] = []
    ∧ collectLastCitations (msgs ++ [m]) =
        (if m.content ≠ ""
            ∧ containsSub "[CITATION".toList m.content.toList = true
            ∧ containsSub "SOURCE:".toList m.content.toList = true
            ∧ citBlocks m.content.toList ≠ []
         then (citBlocks m.content.toList).filterMap citationOfBlock
         else collectLastCitations msgs) := by
  refine ⟨rfl, ?_⟩
  unfold collectLastCitations
  rw [List.reverse_append, List.reverse_singleton, List.singleton_append]
  exact collectLastGo_cons m msgs.reverse

/-- An old tool message with a well-formed citation block. -/
def c3OlderMsg : Message :=
  { role := "tool", content := "[CITATION 1]\nSOURCE: a.pdf" }

/-- A newer message containing both literal substrings but no parseable
`[CITATION n]` block (no number between `[CITATION` and `]`). -/
def c3NewerMsg : Message :=
  { role := "assistant", content := "[CITATION] SOURCE: x" }

/-- **C3** (counterexample): the newest message qualifies under the claim's
criterion (it contains `"[CITATION"` and `"SOURCE:"`), so the claim predicts
an empty result (it has no parseable block); the code instead skips it and
returns the older tool message's citations. -/
theorem c3_counterexample :
    containsSub "[CITATION".toList c3NewerMsg.content.toList = true
    ∧ containsSub "SOURCE:".toList c3NewerMsg.content.toList = true
    ∧ collectLastCitations [c3OlderMsg, c3NewerMsg] =
        [{ source := "a.pdf", title := none, page := none, chunk := none, snippet := none }] := by
  refine ⟨by decide, by decide, by decide⟩

theorem dictInsert_of_not_mem (k : String) (v : CacheEntry) :
    ∀ l : List (String × CacheEntry), k ∉ l.map Prod.fst →
      dictInsert k v l = l ++ [(k, v)]
  | [], _ => rfl
  | kv :: rest, h => by
    have hne : kv.1 ≠ k := by
      intro hc; exact h (by simp [hc])
    simp only [dictInsert, if_neg hne, List.cons_append, List.cons.injEq, true_and]
    exact dictInsert_of_not_mem k v rest (fun hc => h (by simp [hc]))

theorem dictInsert_mem_of_ne (k : String) (v : CacheEntry) (kv : String × CacheEntry) :
    ∀ l : List (String × CacheEntry), kv ∈ l → kv.1 ≠ k → kv ∈ dictInsert k v l
  | [], h, _ => absurd h (by simp)
  | kv0 :: rest, h, hne => by
    simp only [dictInsert]
    by_cases h0 : kv0.1 = k
    · rw [if_pos h0]
      rcases List.mem_cons.mp h with h | h
    -- kv cannot be the overwritten head: its key differs
      · exact absurd (h ▸ h0) hne
      · exact List.mem_cons_of_mem _ h
    · rw [if_neg h0]
      rcases List.mem_cons.mp h with h | h
      · exact h ▸ List.mem_cons_self _ _
      · exact List.mem_cons_of_mem _ (dictInsert_mem_of_ne k v kv rest h hne)

theorem length_dictInsert_le (k : String) (v : CacheEntry) :
    ∀ l : List (String × CacheEntry), (dictInsert k v l).length ≤ l.length + 1
  | [] => by simp [dictInsert]
  | kv :: rest => by
    simp only [dictInsert]
    by_cases h0 : kv.1 = k
    · rw [if_pos h0]; simp
    · rw [if_neg h0]
      simpa using length_dictInsert_le k v rest

theorem dictInsert_map_fst (k : String) (v : CacheEntry) :
    ∀ l : List (String × CacheEntry),
      (dictInsert k v l).map Prod.fst =
        if k ∈ l.map Prod.fst then l.map Prod.fst else l.map Prod.fst ++ [k]
  | [] => by simp [dictInsert]
  | kv :: rest => by
    simp only [dictInsert]
    by_cases h0 : kv.1 = k
    · rw [if_pos h0, if_pos (by simp [h0])]
      simp [h0]
    · rw [if_neg h0]
      by_cases hm : k ∈ rest.map Prod.fst
      · rw [if_pos (by simp [hm])]
        simp only [List.map_cons, List.cons.injEq, true_and]
        rw [dictInsert_map_fst k v rest, if_pos hm]
      · rw [if_neg (by simp [hm, Ne.symm h0])]
        simp only [List.map_cons, List.cons_append, List.cons.injEq, true_and]
        rw [dictInsert_map_fst k v rest, if_neg hm]

theorem dictInsert_nodup (k : String) (v : CacheEntry) (l : List (String × CacheEntry))
    (h : (l.map Prod.fst).Nodup) : ((dictInsert k v l).map Prod.fst).Nodup := by
  rw [dictInsert_map_fst]
  by_cases hm : k ∈ l.map Prod.fst
  · rwa [if_pos hm]
  · rw [if_neg hm]
    rw [List.nodup_append]
    refine ⟨h, List.nodup_singleton _, ?_⟩
    intro a ha hb
    simp only [List.mem_singleton] at hb
    exact hm (hb ▸ ha)

theorem dictInsert_filter_self (k : String) (v : CacheEntry) :
    ∀ l : List (String × CacheEntry), (l.map Prod.fst).Nodup →
      (dictInsert k v l).filter (fun kv => kv.1 = k) = [(k, v)]
  | [], _ => by simp [dictInsert]
  | kv0 :: rest, h => by
    simp only [List.map_cons, List.nodup_cons] at h
    simp only [dictInsert]
    by_cases h0 : kv0.1 = k
    · rw [if_pos h0]
      have : rest.filter (fun kv => kv.1 = k) = [] := by
        apply List.filter_eq_nil_iff.mpr
        intro kv hkv
        simp only [decide_eq_true_eq]
        intro hc
        exact h.1 (h0 ▸ hc ▸ List.mem_map_of_mem Prod.fst hkv)
      simp [this]
    · rw [if_neg h0]
      rw [List.filter_cons_of_neg (by simpa using h0)]
      exact dictInsert_filter_self k v rest h.2

theorem dictErase_of_not_mem (k : String) (l : List (String × CacheEntry))
    (h : k ∉ l.map Prod.fst) : dictErase k l = l := by
  apply List.filter_eq_self.mpr
  intro kv hkv
  simp only [decide_eq_true_eq]
  intro hc
  exact h (hc ▸ List.mem_map_of_mem Prod.fst hkv)

theorem dictGet?_mem (k : String) (e : CacheEntry) :
    ∀ l : List (String × CacheEntry), dictGet? k l = some e → (k, e) ∈ l
  | [], h => by simp [dictGet?] at h
  | kv :: rest, h => by
    simp only [dictGet?] at h
    by_cases h0 : kv.1 = k
    · rw [if_pos h0] at h
      obtain ⟨k0, e0⟩ := kv
      simp only at h0
      simp only [Option.some.injEq] at h
      subst h0
      subst h
      exact List.mem_cons_self _ _
    · rw [if_neg h0] at h
      exact List.mem_cons_of_mem _ (dictGet?_mem k e rest h)

theorem dictGet?_isSome_of_mem (k : String) :
    ∀ l : List (String × CacheEntry), k ∈ l.map Prod.fst →
      ∃ e, dictGet? k l = some e
  | [], h => absurd h (by simp)
  | kv :: rest, h => by
    simp only [dictGet?]
    by_cases h0 : kv.1 = k
    · exact ⟨kv.2, by rw [if_pos h0]⟩
    · rw [if_neg h0]
      apply dictGet?_isSome_of_mem k rest
      rcases List.mem_map.mp h with ⟨kv', hkv', hfst⟩
      rcases List.mem_cons.mp hkv' with h' | h'
      · exact absurd (h' ▸ hfst) h0
      · exact hfst ▸ List.mem_map_of_mem Prod.fst h'

theorem enforceCapacityFuel_of_le (maxE : ℕ) (l : List (String × CacheEntry))
    (h : l.length ≤ maxE) : ∀ fuel, enforceCapacityFuel maxE fuel l = l := by
  intro fuel
  cases fuel with
  | zero => rfl
  | succ f => simp only [enforceCapacityFuel, if_pos h]

theorem enforceCapacity_of_le (maxE : ℕ) (l : List (String × CacheEntry))
    (h : l.length ≤ maxE) : enforceCapacity maxE l = l :=
  enforceCapacityFuel_of_le maxE l h _

theorem oldestOf_head (kv : String × CacheEntry) :
    ∀ rest : List (String × CacheEntry),
      (∀ kv' ∈ rest, kv.2.created_at ≤ kv'.2.created_at) → oldestOf kv rest = kv
  | [], _ => rfl
  | kv' :: rest, h => by
    simp only [oldestOf]
    rw [if_neg (not_lt.mpr (h kv' (List.mem_cons_self _ _)))]
    exact oldestOf_head kv rest (fun x hx => h x (List.mem_cons_of_mem _ hx))

theorem enforceCapacity_evict_head (maxE : ℕ) (kv : String × CacheEntry)
    (rest : List (String × CacheEntry))
    (hlen : (kv :: rest).length = maxE + 1)
    (hmin : ∀ kv' ∈ rest, kv.2.created_at ≤ kv'.2.created_at)
    (hkey : kv.1 ∉ rest.map Prod.fst) :
    enforceCapacity maxE (kv :: rest) = rest := by
  have hrest : rest.length ≤ maxE := by
    simp only [List.length_cons] at hlen; omega
  unfold enforceCapacity
  rw [hlen]
  simp only [enforceCapacityFuel]
  rw [if_neg (show ¬ (kv :: rest).length ≤ maxE by
    simp only [List.length_cons] at hlen ⊢; omega)]
  rw [oldestOf_head kv rest hmin]
  have herase : dictErase kv.1 (kv :: rest) = rest := by
    unfold dictErase
    rw [List.filter_cons_of_neg (by simp)]
    exact dictErase_of_not_mem kv.1 rest hkey
  rw [herase]
  exact enforceCapacityFuel_of_le maxE rest hrest maxE

/-- A sequence of `put` calls: each item is `(query, answer, time)` (with no
citations). -/
def putMany : SemanticCache → List (String × String × ℚ) → SemanticCache
  | c, [] => c
  | c, item :: rest => putMany (c.put item.1 item.2.1 none item.2.2) rest

theorem putMany_append (c : SemanticCache) (l1 l2 : List (String × String × ℚ)) :
    putMany c (l1 ++ l2) = putMany (putMany c l1) l2 := by
  induction l1 generalizing c with
  | nil => rfl
  | cons it rest ih =>
    simp only [List.cons_append, putMany]
    exact ih _

/-- The entry a `put` of item `it` creates in cache `c`. -/
def putEntry (c : SemanticCache) (it : String × String × ℚ) : String × CacheEntry :=
  (makeKey it.1,
   { query := it.1, answer := it.2.1, citations := [],
     embedding := c.embed it.1, created_at := it.2.2, hit_count := 0 })

theorem putMany_no_eviction (c : SemanticCache) (items : List (String × String × ℚ))
    (hfresh : ∀ it ∈ items, makeKey it.1 ∉ c.store.map Prod.fst)
    (hnodup : (items.map fun it => makeKey it.1).Nodup)
    (hcap : c.store.length + items.length ≤ c.max_entries) :
    (putMany c items).store = c.store ++ items.map (putEntry c)
    ∧ (putMany c items).embed = c.embed
    ∧ (putMany c items).max_entries = c.max_entries
    ∧ (putMany c items).ttl = c.ttl
    ∧ (putMany c items).threshold = c.threshold := by
  induction items generalizing c with
  | nil => simp [putMany]
  | cons it rest ih =>
    simp only [putMany]
    have hkey : makeKey it.1 ∉ c.store.map Prod.fst :=
      hfresh it (List.mem_cons_self _ _)
    have hins : dictInsert (makeKey it.1)
        { query := it.1, answer := it.2.1, citations := (none : Option (List Citation)).getD [],
          embedding := c.embed it.1, created_at := it.2.2, hit_count := 0 } c.store
        = c.store ++ [putEntry c it] :=
      dictInsert_of_not_mem _ _ c.store hkey
    have hstore1 : (c.put it.1 it.2.1 none it.2.2).store = c.store ++ [putEntry c it] := by
      simp only [SemanticCache.put]
      rw [hins]
      apply enforceCapacity_of_le
      rw [List.length_append]
      simp only [List.length_singleton]
      simp only [List.length_cons] at hcap
      omega
    have hconf : (c.put it.1 it.2.1 none it.2.2).embed = c.embed
        ∧ (c.put it.1 it.2.1 none it.2.2).max_entries = c.max_entries
        ∧ (c.put it.1 it.2.1 none it.2.2).ttl = c.ttl
        ∧ (c.put it.1 it.2.1 none it.2.2).threshold = c.threshold := by
      simp [SemanticCache.put]
    set c1 := c.put it.1 it.2.1 none it.2.2 with hc1
    have hfresh' : ∀ it' ∈ rest, makeKey it'.1 ∉ c1.store.map Prod.fst := by
      intro it' hit'
      rw [hstore1]
      simp only [List.map_append, List.mem_append]
      rintro (hmem | hmem)
      · exact hfresh it' (List.mem_cons_of_mem _ hit') hmem
      · simp only [putEntry, List.map_cons, List.map_nil, List.mem_singleton] at hmem
        simp only [List.map_cons, List.nodup_cons] at hnodup
        exact hnodup.1 (hmem ▸ List.mem_map_of_mem (fun it => makeKey it.1) hit')
    have hnodup' : (rest.map fun it => makeKey it.1).Nodup := by
      simp only [List.map_cons, List.nodup_cons] at hnodup
      exact hnodup.2
    have hcap' : c1.store.length + rest.length ≤ c1.max_entries := by
      rw [hstore1, hconf.2.1, List.length_append]
      simp only [List.length_singleton]
      simp only [List.length_cons] at hcap
      omega
    obtain ⟨hs, he, hm, ht, hth⟩ := ih c1 hfresh' hnodup' hcap'
    refine ⟨?_, he.trans hconf.1, hm.trans hconf.2.1, ht.trans hconf.2.2.1,
      hth.trans hconf.2.2.2⟩
    rw [hs, hstore1]
    have hentry : rest.map (putEntry c1) = rest.map (putEntry c) := by
      apply List.map_congr_left
      intro it' _
      simp only [putEntry, hconf.1]
    rw [hentry, List.append_assoc]
    simp

/-- **C5**: starting from an empty cache, `max_entries + 1` `put`s of
key-distinct queries at strictly increasing times leave exactly `max_entries`
live entries, and the evicted entry is the one with the smallest
`created_at` (the first inserted): the surviving keys are exactly the keys of
all but the first insertion, in order. -/
theorem c5_capacity (c : SemanticCache) (items : List (String × String × ℚ))
    (hempty : c.store = [])
    (hlen : items.length = c.max_entries + 1)
    (hnodup : (items.map fun it => makeKey it.1).Nodup)
    (htimes : (items.map fun it => it.2.2).Pairwise (· < ·)) :
    (putMany c items).size = c.max_entries
    ∧ (putMany c items).store.map Prod.fst = (items.map fun it => makeKey it.1).tail := by
  have hne : items ≠ [] := by
    intro hc; rw [hc] at hlen; simp at hlen
  obtain ⟨lastIt, front, hsplit⟩ : ∃ l f, items = f ++ [l] :=
    ⟨items.getLast hne, items.dropLast, (List.dropLast_append_getLast hne).symm⟩
  subst hsplit
  have hfrontlen : front.length = c.max_entries := by
    simp only [List.length_append, List.length_singleton] at hlen
    omega
  rw [List.map_append] at hnodup
  rw [List.nodup_append] at hnodup
  obtain ⟨hfnodup, -, hdisj⟩ := hnodup
  have hlast_fresh : makeKey lastIt.1 ∉ front.map fun it => makeKey it.1 := by
    intro hc
    exact hdisj hc (by simp)
  -- phase 1: the first max_entries inserts never evict
  obtain ⟨hs1, he1, hm1, -, -⟩ := putMany_no_eviction c front
    (by intro it _; rw [hempty]; simp)
    hfnodup
    (by rw [hempty]; simpa using le_of_eq hfrontlen)
  rw [putMany_append]
  set c1 := putMany c front with hc1
  have hs1' : c1.store = front.map (putEntry c) := by
    rw [hs1, hempty]; simp
  -- the final put: insert then evict the oldest entry
  simp only [putMany]
  have hkeys1 : c1.store.map Prod.fst = front.map fun it => makeKey it.1 := by
    rw [hs1']
    rw [List.map_map]
    rfl
  have hfresh1 : makeKey lastIt.1 ∉ c1.store.map Prod.fst := by
    rw [hkeys1]; exact hlast_fresh
  have hins : dictInsert (makeKey lastIt.1)
      { query := lastIt.1, answer := lastIt.2.1,
        citations := (none : Option (List Citation)).getD [],
        embedding := c1.embed lastIt.1, created_at := lastIt.2.2, hit_count := 0 } c1.store
      = c1.store ++ [putEntry c1 lastIt] :=
    dictInsert_of_not_mem _ _ c1.store hfresh1
  have hpe : putEntry c1 lastIt = putEntry c lastIt := by
    simp only [putEntry, he1]
  have hstore2 : c1.store ++ [putEntry c1 lastIt]
      = (front ++ [lastIt]).map (putEntry c) := by
    rw [hs1', hpe, List.map_append]
    simp
  -- spell out the combined entry list with an explicit head
  cases hfront : front with
  | nil =>
    subst hfront
    have hmax0 : c.max_entries = 0 := by simpa using hfrontlen.symm
    simp only [SemanticCache.put]
    rw [hins, hstore2]
    simp only [List.nil_append, List.map_cons, List.map_nil]
    rw [hm1, hmax0]
    rw [enforceCapacity_evict_head 0 (putEntry c lastIt) [] (by simp)
      (by intro kv hkv; simp at hkv) (by simp)]
    simp [SemanticCache.size, hmax0]
  | cons f0 frest =>
    subst hfront
    simp only [SemanticCache.put]
    rw [hins, hstore2]
    simp only [List.cons_append, List.map_cons]
    rw [hm1]
    have hlen2 : (putEntry c f0 :: (frest ++ [lastIt]).map (putEntry c)).length
        = c.max_entries + 1 := by
      simp only [List.length_cons, List.length_map, List.length_append,
        List.length_singleton, List.length_nil]
      simp only [List.length_cons] at hfrontlen
      omega
    have htime0 : ∀ kv' ∈ (frest ++ [lastIt]).map (putEntry c),
        (putEntry c f0).2.created_at ≤ kv'.2.created_at := by
      intro kv' hkv'
      rcases List.mem_map.mp hkv' with ⟨it', hit', rfl⟩
      have : f0.2.2 < it'.2.2 := by
        rw [List.map_append] at htimes
        simp only [List.cons_append, List.map_cons, List.pairwise_cons] at htimes
        refine htimes.1 it'.2.2 ?_
        have hmem2 : it'.2.2 ∈ (frest.map fun it => it.2.2) ++ [lastIt.2.2] := by
          rcases List.mem_append.mp hit' with hm | hm
          · exact List.mem_append_left _ (List.mem_map_of_mem _ hm)
          · simp only [List.mem_singleton] at hm
            subst hm
            exact List.mem_append_right _ (by simp)
        simpa using hmem2
      simp only [putEntry]
      exact le_of_lt this
    have hkey0 : (putEntry c f0).1 ∉ ((frest ++ [lastIt]).map (putEntry c)).map Prod.fst := by
      intro hc
      rw [List.map_map] at hc
      have hc' : makeKey f0.1 ∈ (frest ++ [lastIt]).map fun it => makeKey it.1 := hc
      rw [List.map_append] at hc'
      rcases List.mem_append.mp hc' with hmem | hmem
      · simp only [List.map_cons, List.nodup_cons] at hfnodup
        exact hfnodup.1 hmem
      · simp only [List.map_cons, List.map_nil, List.mem_singleton] at hmem
        exact hdisj
          (show makeKey f0.1 ∈ List.map (fun it => makeKey it.1) (f0 :: frest) by simp)
          (show makeKey f0.1 ∈ List.map (fun it => makeKey it.1) [lastIt] by simp [hmem])
    rw [enforceCapacity_evict_head c.max_entries (putEntry c f0)
      ((frest ++ [lastIt]).map (putEntry c)) hlen2 htime0 hkey0]
    constructor
    · simp only [SemanticCache.size, List.length_map, List.length_append,
        List.length_singleton]
      simp only [List.length_cons] at hfrontlen
      omega
    · rw [List.map_map]
      simp only [List.map_cons, List.map_append, List.tail_cons]
      rfl

theorem dictInsert_key_mem (k : String) (v : CacheEntry) (l : List (String × CacheEntry)) :
    k ∈ (dictInsert k v l).map Prod.fst := by
  rw [dictInsert_map_fst]
  by_cases hm : k ∈ l.map Prod.fst
  · rwa [if_pos hm]
  · rw [if_neg hm]; simp

theorem length_dictInsert_of_mem (k : String) (v : CacheEntry) :
    ∀ l : List (String × CacheEntry), k ∈ l.map Prod.fst →
      (dictInsert k v l).length = l.length
  | [], h => absurd h (by simp)
  | kv :: rest, h => by
    simp only [dictInsert]
    by_cases h0 : kv.1 = k
    · rw [if_pos h0]; simp
    · rw [if_neg h0]
      simp only [List.length_cons]
      congr 1
      apply length_dictInsert_of_mem
      rcases List.mem_map.mp h with ⟨kv', hkv', hfst⟩
      rcases List.mem_cons.mp hkv' with h' | h'
      · exact absurd (h' ▸ hfst) h0
      · exact hfst ▸ List.mem_map_of_mem Prod.fst h'

/-- **C9**: `put` is idempotent per normalized query: two `put`s whose queries
agree after stripping and lowercasing (here: equal `makeKey`s) leave exactly
one entry under that key, holding the second call's answer, citations and
timestamp. -/
theorem c9_put_idempotent (c : SemanticCache) (q1 q2 a1 a2 : String)
    (cs1 cs2 : Option (List Citation)) (t1 t2 : ℚ)
    (hk : makeKey q1 = makeKey q2)
    (hnodup : (c.store.map Prod.fst).Nodup)
    (hcap : c.store.length < c.max_entries) :
    (((c.put q1 a1 cs1 t1).put q2 a2 cs2 t2).store.filter
        (fun kv => kv.1 = makeKey q2)).map
        (fun kv => (kv.2.answer, kv.2.citations, kv.2.created_at))
      = [(a2, cs2.getD [], t2)] := by
  simp only [SemanticCache.put]
  rw [enforceCapacity_of_le _ _ (le_trans (length_dictInsert_le _ _ _) hcap)]
  set e1 : CacheEntry :=
    { query := q1, answer := a1, citations := cs1.getD [],
      embedding := c.embed q1, created_at := t1, hit_count := 0 } with he1
  set s1 := dictInsert (makeKey q1) e1 c.store with hs1
  have hmem1 : makeKey q2 ∈ s1.map Prod.fst := by
    rw [hs1, ← hk]
    exact dictInsert_key_mem _ _ _
  have hlen1 : s1.length ≤ c.store.length + 1 := length_dictInsert_le _ _ _
  rw [enforceCapacity_of_le _ _ (by
    rw [length_dictInsert_of_mem _ _ _ hmem1]
    omega)]
  have hnodup1 : (s1.map Prod.fst).Nodup := dictInsert_nodup _ _ _ hnodup
  rw [dictInsert_filter_self _ _ _ hnodup1]
  rfl

/-- A concrete empty cache with room for two entries. -/
noncomputable def c9Cache : SemanticCache :=
  { embed := fun _ => [1], threshold := 0.92, max_entries := 2, ttl := 3600,
    store := [] }

theorem c9_put_idempotent_witness :
    (((c9Cache.put "Query" "first" none 0).put " query " "second" none 1).store.filter
        (fun kv => kv.1 = makeKey " query ")).map
        (fun kv => (kv.2.answer, kv.2.citations, kv.2.created_at))
      = [("second", (none : Option (List Citation)).getD [], 1)] :=
  c9_put_idempotent c9Cache "Query" " query " "first" "second" none none 0 1
    (by decide) (by decide) (by decide)

/-- A concrete empty cache with room for two entries (capacity witness). -/
noncomputable def c5Cache : SemanticCache :=
  { embed := fun _ => [1], threshold := 0.92, max_entries := 2, ttl := 3600,
    store := [] }

theorem c5_capacity_witness :
    (putMany c5Cache [("a", "A", 0), ("b", "B", 1), ("c", "C", 2)]).size
        = c5Cache.max_entries
    ∧ (putMany c5Cache [("a", "A", 0), ("b", "B", 1), ("c", "C", 2)]).store.map Prod.fst
        = ([(("a" : String), ("A" : String), (0 : ℚ)), ("b", "B", 1), ("c", "C", 2)].map
            fun it => makeKey it.1).tail :=
  c5_capacity c5Cache [("a", "A", 0), ("b", "B", 1), ("c", "C", 2)]
    rfl (by decide) (by decide) (by decide)

/-- **C6** (amended): `put` performs no TTL sweep (only `get` calls
`_evict_expired`): below capacity, every entry under a different key — even a
TTL-expired one — survives a `put` unchanged. -/
theorem c6_put_no_ttl_sweep (c : SemanticCache) (q a : String)
    (cs : Option (List Citation)) (now : ℚ) (kv : String × CacheEntry)
    (hkv : kv ∈ c.store) (hk : kv.1 ≠ makeKey q)
    (hcap : c.store.length < c.max_entries) :
    kv ∈ (c.put q a cs now).store := by
  simp only [SemanticCache.put]
  rw [enforceCapacity_of_le _ _ (le_trans (length_dictInsert_le _ _ _) hcap)]
  exact dictInsert_mem_of_ne _ _ kv c.store hkv hk

/-- An entry created at time 0 (expired at any time past `ttl`). -/
noncomputable def c6OldEntry : CacheEntry :=
  { query := "old", answer := "old answer", citations := [], embedding := [1],
    created_at := 0, hit_count := 3 }

/-- A cache with TTL 1 s whose only entry was created at time 0. -/
noncomputable def c6Cache : SemanticCache :=
  { embed := fun _ => [1], threshold := 0.92, max_entries := 2048, ttl := 1,
    store := [("old", c6OldEntry)] }

/-- **C6** (counterexample): at time 10 the stored entry is long past the
1-second TTL, yet after `put` of a fresh query it is still in the store —
`put` does not sweep expired entries. -/
theorem c6_counterexample :
    (10 : ℚ) - c6OldEntry.created_at > c6Cache.ttl
    ∧ ("old", c6OldEntry) ∈ (c6Cache.put "new" "ans" none 10).store := by
  constructor
  · show (10 : ℚ) - 0 > 1
    norm_num
  · show ("old", c6OldEntry) ∈ (c6Cache.put "new" "ans" none 10).store
    simp only [SemanticCache.put]
    rw [enforceCapacity_of_le _ _ (le_trans (length_dictInsert_le _ _ _) (by decide))]
    apply dictInsert_mem_of_ne
    · show ("old", c6OldEntry) ∈ c6Cache.store
      exact List.mem_cons_self _ _
    · decide

theorem c6_put_no_ttl_sweep_witness :
    ("old", c6OldEntry) ∈ (c6Cache.put "other" "ans" none 10).store :=
  c6_put_no_ttl_sweep c6Cache "other" "ans" none 10 ("old", c6OldEntry)
    (List.mem_cons_self _ _) (by decide) (by decide)

theorem dotList_single (x y : ℝ) : dotList [x] [y] = x * y := by
  simp [dotList]

theorem normL2_single (x : ℝ) : normL2 [x] = Real.sqrt (x * x) := by
  unfold normL2
  rw [dotList_single]

theorem normL2_one : normL2 [(1 : ℝ)] = 1 := by
  rw [normL2_single]
  rw [show (1 : ℝ) * 1 = 1 by norm_num, Real.sqrt_one]

theorem normL2_negone : normL2 [(-1 : ℝ)] = 1 := by
  rw [normL2_single]
  rw [show (-1 : ℝ) * -1 = 1 by norm_num, Real.sqrt_one]

theorem cosine_one_one : cosineSimilarity [(1 : ℝ)] [1] = 1 := by
  unfold cosineSimilarity
  rw [normL2_one, dotList_single]
  norm_num

theorem cosine_one_negone : cosineSimilarity [(1 : ℝ)] [-1] = -1 := by
  unfold cosineSimilarity
  rw [normL2_one, normL2_negone, dotList_single]
  norm_num

theorem mem_evictExpired (ttl now : ℚ) (store : List (String × CacheEntry))
    (kv : String × CacheEntry) (h : kv ∈ evictExpired ttl now store) :
    kv ∈ store ∧ now - kv.2.created_at ≤ ttl := by
  have := List.mem_filter.mp h
  exact ⟨this.1, by simpa using this.2⟩

theorem mem_bumpHit (k : String) (store : List (String × CacheEntry))
    (kv : String × CacheEntry) (h : kv ∈ bumpHit k store) :
    ∃ kv0 ∈ store, kv.2.created_at = kv0.2.created_at := by
  rcases List.mem_map.mp h with ⟨kv0, h0, rfl⟩
  refine ⟨kv0, h0, ?_⟩
  by_cases hk : kv0.1 = k <;> simp [hk]

/-- **C4** (amended): expiry on `get` is strict (`now - created_at > ttl`):
after a `get` at time `now`, every surviving entry satisfies
`now - created_at ≤ ttl`, and a hit's answer and citations always come from
such a live entry — an entry strictly older than the TTL is neither returned
nor kept.  `size` itself performs no sweep: it only reflects expiry after a
`get` has swept the store. -/
theorem c4_ttl_strict_on_get (c : SemanticCache) (now : ℚ) (q : String) :
    (∀ kv ∈ ((c.get now q).2).store, now - kv.2.created_at ≤ c.ttl ∨ c.store = [])
    ∧ (∀ a cs, (c.get now q).1 = some (a, cs) →
        ∃ kv ∈ c.store, now - kv.2.created_at ≤ c.ttl
          ∧ a = kv.2.answer ∧ cs = kv.2.citations) := by
  cases hstore : c.store with
  | nil =>
    constructor
    · intro kv _
      right
      rfl
    · intro a cs hsome
      simp only [SemanticCache.get, hstore] at hsome
      exact absurd hsome (by simp)
  | cons kv0 rest =>
    have hget :
        c.get now q =
          (match (bestScan (c.embed q) (evictExpired c.ttl now (kv0 :: rest))).1 with
           | none => (none, { c with store := evictExpired c.ttl now (kv0 :: rest) })
           | some key =>
             if (bestScan (c.embed q) (evictExpired c.ttl now (kv0 :: rest))).2 ≥ c.threshold then
               match dictGet? key (evictExpired c.ttl now (kv0 :: rest)) with
               | some e => (some (e.answer, e.citations),
                            { c with store := bumpHit key (evictExpired c.ttl now (kv0 :: rest)) })
               | none => (none, { c with store := evictExpired c.ttl now (kv0 :: rest) })
             else (none, { c with store := evictExpired c.ttl now (kv0 :: rest) })) := by
      unfold SemanticCache.get
      rw [hstore]
    rw [hget]
    split
    · constructor
      · intro kv hkv
        exact Or.inl (mem_evictExpired _ _ _ _ hkv).2
      · intro a cs hsome
        simp at hsome
    · rename_i key hbest
      split
      · rename_i hth
        split
        · rename_i e hfind
          constructor
          · intro kv hkv
            rcases mem_bumpHit _ _ _ hkv with ⟨kv1, hkv1, hcreq⟩
            exact Or.inl (hcreq ▸ (mem_evictExpired _ _ _ _ hkv1).2)
          · intro a cs hsome
            simp only [Option.some.injEq, Prod.mk.injEq] at hsome
            have hm := mem_evictExpired _ _ _ _ (dictGet?_mem _ _ _ hfind)
            exact ⟨(key, e), hm.1, hm.2, hsome.1.symm, hsome.2.symm⟩
        · constructor
          · intro kv hkv
            exact Or.inl (mem_evictExpired _ _ _ _ hkv).2
          · intro a cs hsome
            simp at hsome
      · constructor
        · intro kv hkv
          exact Or.inl (mem_evictExpired _ _ _ _ hkv).2
        · intro a cs hsome
          simp at hsome

/-- The single entry of `c4Cache`: inserted by `put` at time 0. -/
noncomputable def c4Entry : CacheEntry :=
  { query := "q", answer := "a", citations := [], embedding := [1],
    created_at := 0, hit_count := 0 }

/-- A cache with TTL 1 s holding the result of `put "q" "a"` at time 0. -/
noncomputable def c4Cache : SemanticCache :=
  SemanticCache.put
    { embed := fun _ => [1], threshold := 0.92, max_entries := 2048, ttl := 1,
      store := [] } "q" "a" none 0

theorem c4Cache_store : c4Cache.store = [("q", c4Entry)] := by
  have h1 : c4Cache.store = enforceCapacity 2048 [(makeKey "q", c4Entry)] := rfl
  rw [h1, enforceCapacity_of_le 2048 _ (by norm_num)]
  have hk : makeKey "q" = "q" := by decide
  rw [hk]

/-- **C4** (counterexample): the entry was inserted at time 0 with TTL 1, so
the claim says it is absent from `get` results and from `size` at any time
`≥ 1`.  At time exactly 1 (`= T + ttl`) `get` still returns it (expiry is
strict), and `size` still counts it — and counts it at *every* later time,
because `size` never sweeps. -/
theorem c4_counterexample :
    (c4Cache.get 1 "q").1 = some ("a", []) ∧ c4Cache.size = 1 := by
  constructor
  · have hlive : evictExpired c4Cache.ttl 1 [("q", c4Entry)] = [("q", c4Entry)] := by
      unfold evictExpired
      rw [List.filter_cons_of_pos]
      · rfl
      · rw [decide_eq_true_eq]
        show (1 : ℚ) - c4Entry.created_at ≤ c4Cache.ttl
        rw [show c4Entry.created_at = 0 from rfl, show c4Cache.ttl = 1 from rfl]
        norm_num
    have hembed : c4Cache.embed "q" = [(1 : ℝ)] := rfl
    have hbest : bestScan (c4Cache.embed "q") [("q", c4Entry)] = (some "q", 1) := by
      simp only [bestScan, List.foldl_cons, List.foldl_nil, hembed]
      rw [show c4Entry.embedding = [(1 : ℝ)] from rfl]
      rw [cosine_one_one]
      rw [if_pos (by norm_num : (-1 : ℝ) < 1)]
    have hget :
        c4Cache.get 1 "q" =
          match (bestScan (c4Cache.embed "q")
              (evictExpired c4Cache.ttl 1 [("q", c4Entry)])).1 with
          | none => (none, { c4Cache with
              store := evictExpired c4Cache.ttl 1 [("q", c4Entry)] })
          | some key =>
            if (bestScan (c4Cache.embed "q")
                (evictExpired c4Cache.ttl 1 [("q", c4Entry)])).2 ≥ c4Cache.threshold then
              match dictGet? key (evictExpired c4Cache.ttl 1 [("q", c4Entry)]) with
              | some e => (some (e.answer, e.citations), { c4Cache with
                  store := bumpHit key (evictExpired c4Cache.ttl 1 [("q", c4Entry)]) })
              | none => (none, { c4Cache with
                  store := evictExpired c4Cache.ttl 1 [("q", c4Entry)] })
            else (none, { c4Cache with
                store := evictExpired c4Cache.ttl 1 [("q", c4Entry)] }) := by
      unfold SemanticCache.get
      rw [c4Cache_store]
    rw [hget, hlive, hbest]
    simp only []
    rw [if_pos (by rw [show c4Cache.threshold = (0.92 : ℝ) from rfl]; norm_num)]
    rfl
  · rw [SemanticCache.size, c4Cache_store]
    rfl

/-- An empty cache for the request-handler witness. -/
noncomputable def c7Cache : SemanticCache :=
  SemanticCache.init (fun _ => [1])

/-- **C7**: after a cache miss, a failed orchestrator run — a timeout or any
other exception — produces a single structured error (status + detail) and
never a partial answer, and the cache is returned exactly as the lookup left
it: no `put` happens unless a complete answer was produced. -/
theorem c7_error_no_put (cache : SemanticCache) (message : String) (timeout_s : ℕ)
    (now : ℚ) (outcome : GraphOutcome)
    (hmiss : (cache.get now message).1 = none)
    (hfail : outcome = GraphOutcome.timeout
      ∨ ∃ n m, outcome = GraphOutcome.failure n m) :
    (∃ err : ChatError, (chat cache message timeout_s now outcome).1 = Except.error err)
    ∧ (chat cache message timeout_s now outcome).2 = (cache.get now message).2 := by
  rcases hfail with hfail | ⟨n, m, hfail⟩ <;> subst hfail <;>
    simp only [chat, hmiss] <;> exact ⟨⟨_, rfl⟩, trivial⟩

theorem c7_error_no_put_witness :
    (∃ err : ChatError, (chat c7Cache "q" 60 0 GraphOutcome.timeout).1 = Except.error err)
    ∧ (chat c7Cache "q" 60 0 GraphOutcome.timeout).2 = (c7Cache.get 0 "q").2 :=
  c7_error_no_put c7Cache "q" 60 0 GraphOutcome.timeout rfl (Or.inl rfl)

theorem bestScan_foldl_mono (qVec : List ℝ) :
    ∀ (store : List (String × CacheEntry)) (acc : Option String × ℝ),
      acc.2 ≤ (store.foldl
        (fun best kv =>
          let sim := cosineSimilarity qVec kv.2.embedding
          if best.2 < sim then (some kv.1, sim) else best) acc).2
  | [], acc => le_refl _
  | kv :: rest, acc => by
    simp only [List.foldl_cons]
    refine le_trans ?_ (bestScan_foldl_mono qVec rest _)
    by_cases h : acc.2 < cosineSimilarity qVec kv.2.embedding
    · simp only [if_pos h]
      exact le_of_lt h
    · simp only [if_neg h]
      exact le_refl _

theorem bestScan_foldl_ge (qVec : List ℝ) :
    ∀ (store : List (String × CacheEntry)) (acc : Option String × ℝ)
      (kv : String × CacheEntry), kv ∈ store →
      cosineSimilarity qVec kv.2.embedding ≤ (store.foldl
        (fun best kv =>
          let sim := cosineSimilarity qVec kv.2.embedding
          if best.2 < sim then (some kv.1, sim) else best) acc).2
  | [], _, _, h => absurd h (by simp)
  | kv0 :: rest, acc, kv, h => by
    simp only [List.foldl_cons]
    rcases List.mem_cons.mp h with h | h
    · subst h
      refine le_trans ?_ (bestScan_foldl_mono qVec rest _)
      by_cases hlt : acc.2 < cosineSimilarity qVec kv.2.embedding
      · simp only [if_pos hlt]
        exact le_refl _
      · simp only [if_neg hlt]
        exact le_of_not_lt hlt
    · exact bestScan_foldl_ge qVec rest _ kv h

theorem bestScan_foldl_achieve (qVec : List ℝ) :
    ∀ (store : List (String × CacheEntry)) (acc : Option String × ℝ),
      (store.foldl
        (fun best kv =>
          let sim := cosineSimilarity qVec kv.2.embedding
          if best.2 < sim then (some kv.1, sim) else best) acc) = acc
      ∨ ∃ kv ∈ store,
          (store.foldl
            (fun best kv =>
              let sim := cosineSimilarity qVec kv.2.embedding
              if best.2 < sim then (some kv.1, sim) else best) acc)
            = (some kv.1, cosineSimilarity qVec kv.2.embedding)
  | [], acc => Or.inl rfl
  | kv0 :: rest, acc => by
    simp only [List.foldl_cons]
    by_cases hlt : acc.2 < cosineSimilarity qVec kv0.2.embedding
    · simp only [if_pos hlt]
      rcases bestScan_foldl_achieve qVec rest (some kv0.1, cosineSimilarity qVec kv0.2.embedding)
        with h | ⟨kv, hkv, h⟩
      · exact Or.inr ⟨kv0, List.mem_cons_self _ _, h⟩
      · exact Or.inr ⟨kv, List.mem_cons_of_mem _ hkv, h⟩
    · simp only [if_neg hlt]
      rcases bestScan_foldl_achieve qVec rest acc with h | ⟨kv, hkv, h⟩
      · exact Or.inl h
      · exact Or.inr ⟨kv, List.mem_cons_of_mem _ hkv, h⟩

theorem bestScan_none (qVec : List ℝ) (store : List (String × CacheEntry))
    (h : (bestScan qVec store).1 = none) :
    ∀ kv ∈ store, cosineSimilarity qVec kv.2.embedding ≤ -1 := by
  intro kv hkv
  have hge : cosineSimilarity qVec kv.2.embedding ≤ (bestScan qVec store).2 :=
    bestScan_foldl_ge qVec store (none, -1) kv hkv
  rcases bestScan_foldl_achieve qVec store (none, -1) with heq | ⟨kv1, _, heq⟩
  · have hsnd : (bestScan qVec store).2 = -1 := by
      unfold bestScan
      rw [heq]
  -- with no update the accumulator survives: the best similarity is the initial -1
    rw [hsnd] at hge
    exact hge
  · have hfst : (bestScan qVec store).1 = some kv1.1 := by
      unfold bestScan
      rw [heq]
    rw [h] at hfst
    exact absurd hfst (by simp)

theorem bestScan_some (qVec : List ℝ) (store : List (String × CacheEntry))
    (key : String) (h : (bestScan qVec store).1 = some key) :
    ∃ kv ∈ store, kv.1 = key
      ∧ cosineSimilarity qVec kv.2.embedding = (bestScan qVec store).2 := by
  rcases bestScan_foldl_achieve qVec store (none, -1) with heq | ⟨kv1, hkv1, heq⟩
  · unfold bestScan at h
    rw [heq] at h
    simp at h
  · unfold bestScan at h ⊢
    rw [heq] at h ⊢
    simp only [Option.some.injEq] at h
    exact ⟨kv1, hkv1, h, rfl⟩

theorem mem_unique_of_nodup_keys :
    ∀ (l : List (String × CacheEntry)), (l.map Prod.fst).Nodup →
      ∀ (k : String) (a b : CacheEntry), (k, a) ∈ l → (k, b) ∈ l → a = b
  | [], _, k, a, b, ha, _ => absurd ha (by simp)
  | kv :: rest, h, k, a, b, ha, hb => by
    simp only [List.map_cons, List.nodup_cons] at h
    rcases List.mem_cons.mp ha with ha' | ha' <;> rcases List.mem_cons.mp hb with hb' | hb'
    · have : ((k, a) : String × CacheEntry) = (k, b) := ha'.trans hb'.symm
      exact (Prod.ext_iff.mp this).2
    · exfalso
      apply h.1
      rw [← ha']
      exact List.mem_map.mpr ⟨(k, b), hb', rfl⟩
    · exfalso
      apply h.1
      rw [← hb']
      exact List.mem_map.mpr ⟨(k, a), ha', rfl⟩
    · exact mem_unique_of_nodup_keys rest h.2 k a b ha' hb'

theorem get_unfold_cons (c : SemanticCache) (now : ℚ) (q : String)
    (kv0 : String × CacheEntry) (rest : List (String × CacheEntry))
    (hstore : c.store = kv0 :: rest) :
    c.get now q =
      match (bestScan (c.embed q) (evictExpired c.ttl now (kv0 :: rest))).1 with
      | none => (none, { c with store := evictExpired c.ttl now (kv0 :: rest) })
      | some key =>
        if (bestScan (c.embed q) (evictExpired c.ttl now (kv0 :: rest))).2 ≥ c.threshold then
          match dictGet? key (evictExpired c.ttl now (kv0 :: rest)) with
          | some e => (some (e.answer, e.citations),
                       { c with store := bumpHit key (evictExpired c.ttl now (kv0 :: rest)) })
          | none => (none, { c with store := evictExpired c.ttl now (kv0 :: rest) })
        else (none, { c with store := evictExpired c.ttl now (kv0 :: rest) }) := by
  unfold SemanticCache.get
  rw [hstore]

theorem liveStore_keys_nodup (c : SemanticCache) (now : ℚ)
    (h : (c.store.map Prod.fst).Nodup) :
    ((liveStore c now).map Prod.fst).Nodup :=
  h.sublist ((List.filter_sublist _).map _)

/-- **C1** (amended): provided the threshold exceeds `-1` (the scan's initial
best similarity; the default 0.92 does), `get` returns a hit iff some live
(non-expired) entry's cosine similarity to the query's embedding reaches the
threshold; the hit is the answer and citations of a live entry of maximum
similarity; and an empty cache always misses.  (With a threshold `≤ -1`,
entries at similarity exactly `-1` can be missed even though the maximum
similarity reaches the threshold — see the counterexample.) -/
theorem c1_hit_iff_max_similarity (c : SemanticCache) (now : ℚ) (q : String)
    (hth : -1 < c.threshold)
    (hnodup : (c.store.map Prod.fst).Nodup) :
    ((c.get now q).1.isSome ↔
      ∃ kv ∈ liveStore c now,
        c.threshold ≤ cosineSimilarity (c.embed q) kv.2.embedding)
    ∧ (∀ a cs, (c.get now q).1 = some (a, cs) →
        ∃ kv ∈ liveStore c now,
          a = kv.2.answer ∧ cs = kv.2.citations
          ∧ c.threshold ≤ cosineSimilarity (c.embed q) kv.2.embedding
          ∧ ∀ kv' ∈ liveStore c now,
              cosineSimilarity (c.embed q) kv'.2.embedding
                ≤ cosineSimilarity (c.embed q) kv.2.embedding)
    ∧ (c.store = [] → (c.get now q).1 = none) := by
  cases hstore : c.store with
  | nil =>
    have hlive : liveStore c now = [] := by
      unfold liveStore
      rw [hstore]
      rfl
    have hget : c.get now q = (none, c) := by
      unfold SemanticCache.get
      rw [hstore]
    rw [hget, hlive]
    refine ⟨?_, ?_, ?_⟩
    · simp
    · intro a cs hsome
      simp at hsome
    · intro _
      rfl
  | cons kv0 rest =>
    have hlive : liveStore c now = evictExpired c.ttl now (kv0 :: rest) := by
      unfold liveStore
      rw [hstore]
    have hlivekeys : ((evictExpired c.ttl now (kv0 :: rest)).map Prod.fst).Nodup := by
      rw [← hlive]
      exact liveStore_keys_nodup c now (hstore ▸ hnodup)
    rw [get_unfold_cons c now q kv0 rest hstore, hlive]
    split
    · rename_i hbest
      have hall := bestScan_none (c.embed q) (evictExpired c.ttl now (kv0 :: rest)) hbest
      refine ⟨?_, ?_, ?_⟩
      · simp only [Option.isSome_none, Bool.false_eq_true, false_iff]
        rintro ⟨kv, hkv, hsim⟩
        exact absurd (le_trans hsim (hall kv hkv)) (not_le.mpr hth)
      · intro a cs hsome
        simp at hsome
      · intro _
        rfl
    · rename_i key hbest
      rcases bestScan_some (c.embed q) (evictExpired c.ttl now (kv0 :: rest)) key hbest
        with ⟨kvb, hkvb, hkey, hsim⟩
      split
      · rename_i hge
        split
        · rename_i e hfind
          have hmem : (key, e) ∈ evictExpired c.ttl now (kv0 :: rest) :=
            dictGet?_mem _ _ _ hfind
          have hkvb_eq : kvb = (key, e) := by
            obtain ⟨kb, vb⟩ := kvb
            simp only at hkey
            subst hkey
            exact congrArg _ (mem_unique_of_nodup_keys _ hlivekeys _ _ _ hkvb hmem)
          refine ⟨?_, ?_, ?_⟩
          · simp only [Option.isSome_some, true_iff]
            exact ⟨(key, e), hmem, le_trans hge (le_of_eq (hkvb_eq ▸ hsim).symm)⟩
          · intro a cs hsome
            simp only [Option.some.injEq, Prod.mk.injEq] at hsome
            refine ⟨(key, e), hmem, hsome.1.symm, hsome.2.symm, ?_, ?_⟩
            · exact le_trans hge (le_of_eq (hkvb_eq ▸ hsim).symm)
            · intro kv' hkv'
              have := bestScan_foldl_ge (c.embed q)
                (evictExpired c.ttl now (kv0 :: rest)) (none, -1) kv' hkv'
              exact le_trans this (le_of_eq (hkvb_eq ▸ hsim).symm)
          · intro hc
            exact absurd hc (by simp)
        · rename_i hfind
          exfalso
          have : key ∈ (evictExpired c.ttl now (kv0 :: rest)).map Prod.fst :=
            hkey ▸ List.mem_map_of_mem Prod.fst hkvb
          rcases dictGet?_isSome_of_mem key _ this with ⟨e, he⟩
          rw [hfind] at he
          exact absurd he (by simp)
      · rename_i hge
        refine ⟨?_, ?_, ?_⟩
        · simp only [Option.isSome_none, Bool.false_eq_true, false_iff]
          rintro ⟨kv, hkv, hsimkv⟩
          apply hge
          have := bestScan_foldl_ge (c.embed q)
            (evictExpired c.ttl now (kv0 :: rest)) (none, -1) kv hkv
          exact le_trans hsimkv this
        · intro a cs hsome
          simp at hsome
        · intro _
          rfl

/-- A cached entry whose embedding equals the query embedding (similarity 1). -/
noncomputable def c1WitnessEntry : CacheEntry :=
  { query := "q0", answer := "cached answer", citations := [], embedding := [1],
    created_at := 0, hit_count := 0 }

/-- A default-threshold cache holding `c1WitnessEntry`. -/
noncomputable def c1WitnessCache : SemanticCache :=
  { embed := fun _ => [1], threshold := 0.92, max_entries := 2048, ttl := 3600,
    store := [("q0", c1WitnessEntry)] }

theorem c1_hit_iff_max_similarity_witness :
    ((c1WitnessCache.get 0 "q").1.isSome ↔
      ∃ kv ∈ liveStore c1WitnessCache 0,
        c1WitnessCache.threshold
          ≤ cosineSimilarity (c1WitnessCache.embed "q") kv.2.embedding)
    ∧ (∀ a cs, (c1WitnessCache.get 0 "q").1 = some (a, cs) →
        ∃ kv ∈ liveStore c1WitnessCache 0,
          a = kv.2.answer ∧ cs = kv.2.citations
          ∧ c1WitnessCache.threshold
              ≤ cosineSimilarity (c1WitnessCache.embed "q") kv.2.embedding
          ∧ ∀ kv' ∈ liveStore c1WitnessCache 0,
              cosineSimilarity (c1WitnessCache.embed "q") kv'.2.embedding
                ≤ cosineSimilarity (c1WitnessCache.embed "q") kv.2.embedding)
    ∧ (c1WitnessCache.store = [] → (c1WitnessCache.get 0 "q").1 = none) :=
  c1_hit_iff_max_similarity c1WitnessCache 0 "q"
    (by rw [show c1WitnessCache.threshold = (0.92 : ℝ) from rfl]; norm_num)
    (by decide)

/-- An entry whose embedding is exactly opposite to the query embedding:
cosine similarity `-1`, equal to the scan's initial `best_sim`. -/
noncomputable def c1Entry : CacheEntry :=
  { query := "opposite", answer := "b", citations := [], embedding := [-1],
    created_at := 0, hit_count := 0 }

/-- A cache configured with threshold `-1` holding only `c1Entry`. -/
noncomputable def c1Cache : SemanticCache :=
  { embed := fun _ => [1], threshold := -1, max_entries := 2048, ttl := 3600,
    store := [("opposite", c1Entry)] }

/-- **C1** (counterexample): with threshold `-1`, the only live entry has
similarity `-1`, so the maximum similarity reaches the threshold and the
claim demands a hit; but the scan never updates past its initial
`best_sim = -1.0`, `best_key` stays `None`, and `get` misses. -/
theorem c1_counterexample :
    (∃ kv ∈ liveStore c1Cache 0,
        c1Cache.threshold ≤ cosineSimilarity (c1Cache.embed "q") kv.2.embedding)
    ∧ (c1Cache.get 0 "q").1 = none := by
  have hlive : evictExpired c1Cache.ttl 0 [("opposite", c1Entry)]
      = [("opposite", c1Entry)] := by
    unfold evictExpired
    rw [List.filter_cons_of_pos]
    · rfl
    · rw [decide_eq_true_eq]
      show (0 : ℚ) - c1Entry.created_at ≤ c1Cache.ttl
      rw [show c1Entry.created_at = 0 from rfl, show c1Cache.ttl = 3600 from rfl]
      norm_num
  have hcos : cosineSimilarity (c1Cache.embed "q") c1Entry.embedding = -1 := by
    rw [show c1Cache.embed "q" = [(1 : ℝ)] from rfl,
      show c1Entry.embedding = [(-1 : ℝ)] from rfl]
    exact cosine_one_negone
  constructor
  · refine ⟨("opposite", c1Entry), ?_, ?_⟩
    · show ("opposite", c1Entry) ∈ liveStore c1Cache 0
      unfold liveStore
      rw [show c1Cache.store = [("opposite", c1Entry)] from rfl, hlive]
      exact List.mem_cons_self _ _
    · rw [show (("opposite", c1Entry) : String × CacheEntry).2 = c1Entry from rfl, hcos,
        show c1Cache.threshold = (-1 : ℝ) from rfl]
  · have hbest : bestScan (c1Cache.embed "q") [("opposite", c1Entry)] = (none, -1) := by
      unfold bestScan
      simp only [List.foldl_cons, List.foldl_nil]
      rw [hcos, if_neg (lt_irrefl (-1 : ℝ))]
    rw [get_unfold_cons c1Cache 0 "q" ("opposite", c1Entry) [] rfl, hlive, hbest]
